import Mathlib

/-!
Verification development for the otot history matching and ranking engine
(src/src/database.rs). The Rust functions are shallowly embedded as Lean
functions over lists and rationals; the SQLite table is modelled as a list of
visit records, and the injectable clock is an explicit integer parameter.
-/

namespace Otot

/- ### ASCII character and string helpers -/

/-- ASCII lower-casing of a character, as Rust to_ascii_lowercase, SQLite
NOCASE, and (on the ASCII fragment this repository exercises) Rust
to_lowercase all perform it. -/
def lowerCh (c : Char) : Char :=
  if 'A' ≤ c ∧ c ≤ 'Z' then Char.ofNat (c.toNat + 32) else c

/-- Lower-cased character list of a string. -/
def lowerStr (s : String) : List Char := s.data.map lowerCh

/-- Embedding of Rust str eq_ignore_ascii_case: equality after ASCII
lower-casing. -/
def eqIgnoreAsciiCase (a b : String) : Bool :=
  decide (lowerStr a = lowerStr b)

/-- ASCII lower-casing of a whole string (Rust str to_lowercase on the ASCII
fragment). -/
def strToLower (s : String) : String := String.mk (s.data.map lowerCh)

/-- Byte length of a string, matching Rust str len (UTF-8 byte count). -/
def rustLen (s : String) : Nat := s.utf8ByteSize

/-- Needle-in-haystack subsequence test on character lists: true iff the
first list occurs, in order but not necessarily contiguously, in the second. -/
def isSubseqOf : List Char → List Char → Bool
  | [], _ => true
  | _ :: _, [] => false
  | p :: ps, c :: cs => if p = c then isSubseqOf ps cs else isSubseqOf (p :: ps) cs

/-- Modelled from the external fuzzy_matcher crate (SkimMatcherV2 with default
settings), which src/src/database.rs calls as matcher.fuzzy_match(choice,
pattern).is_some(): a score is found iff the pattern occurs as a subsequence
of the choice, compared case-insensitively when the pattern contains no
upper-case letter (smart case). Restricted to the ASCII fragment used by the
repository. -/
def skimIsMatch (choice pat : String) : Bool :=
  if pat.data.any (fun c => 'A' ≤ c ∧ c ≤ 'Z') then
    isSubseqOf pat.data choice.data
  else
    isSubseqOf (lowerStr pat) (lowerStr choice)

/- ### URL parsing (external dependency model) -/

/-- The parts of a parsed URL that extract_segments consumes. -/
structure ParsedUrl where
  host : String
  hostIsIp : Bool
  rawPathSegments : List String
deriving DecidableEq

/-- Suffix of a character list after its last occurrence of a character (the
whole list when the character is absent). -/
def afterLastCh (c : Char) (l : List Char) : List Char :=
  (l.reverse.takeWhile (fun x => x ≠ c)).reverse

/-- Numeric value of a digit list. -/
def digitsToNat (l : List Char) : Nat :=
  l.foldl (fun n c => n * 10 + (c.toNat - 48)) 0

/-- A dotted-decimal IPv4 octet: one to three digits valued at most 255. -/
def isDecOctet (l : List Char) : Bool :=
  decide (l ≠ []) && l.all Char.isDigit && decide (l.length ≤ 3)
    && decide (digitsToNat l ≤ 255)

/-- Host strings that the WHATWG parser treats as IPv4 addresses (for which
Url domain returns None): four dot-separated decimal octets. -/
def isIpv4 (host : List Char) : Bool :=
  let parts := host.splitOn '.'
  decide (parts.length = 4) && parts.all isDecOctet

/-- Modelled from the external url crate (WHATWG URL parsing), restricted to
the fragment this repository exercises: absolute http or https URLs with a
non-empty ASCII host (no IPv6 brackets, percent-escapes, or path dot-segment
normalization). The scheme is matched case-insensitively, an optional
userinfo part before the last at-sign is discarded, an optional all-digit
port of value at most 65535 is accepted after a colon, the query and the
fragment are cut off, the host is lower-cased, and the path is split on
slashes (a URL without a path gets the single raw segment of the root
path). -/
def parseUrl (s : String) : Option ParsedUrl :=
  let cs := s.data
  let scheme := cs.takeWhile (fun c => c ≠ ':')
  let schemeL := scheme.map lowerCh
  if schemeL = String.data ("http") ∨ schemeL = String.data ("https") then
    match cs.drop scheme.length with
    | ':' :: '/' :: '/' :: rest =>
      let noFrag := rest.takeWhile (fun c => c ≠ '#')
      let noQuery := noFrag.takeWhile (fun c => c ≠ '?')
      let auth := noQuery.takeWhile (fun c => c ≠ '/')
      let pathPart := noQuery.drop auth.length
      let hostPort := afterLastCh '@' auth
      let hostCs := hostPort.takeWhile (fun c => c ≠ ':')
      let portCs := (hostPort.drop hostCs.length).drop 1
      if hostCs = [] ∨ hostCs.any (fun c => c = '[' ∨ c = ']') then none
      else if (hostPort.drop hostCs.length) ≠ [] ∧
          (portCs.any (fun c => ¬ c.isDigit) ∨ digitsToNat portCs > 65535) then none
      else
        let hostL := hostCs.map lowerCh
        let rawSegs : List (List Char) :=
          match pathPart with
          | [] => [[]]
          | _ :: restPath => restPath.splitOn '/'
        some ⟨String.mk hostL, isIpv4 hostL, rawSegs.map String.mk⟩
    | _ => none
  else none

/- ### Segment extraction (src/src/database.rs, extract_segments) -/

/-- Embedding of extract_segments from src/src/database.rs: parse the URL,
push the lower-cased domain when the host is a domain (Url domain returns
None for IP hosts), then each non-empty path segment lower-cased. -/
def extract_segments (urlStr : String) : Option (List String) :=
  (parseUrl urlStr).map fun u =>
    (if u.hostIsIp then [] else [strToLower u.host]) ++
      ((u.rawPathSegments.filter (fun s => ¬ s.isEmpty)).map strToLower)

/-- Embedding of get_last_segment from src/src/database.rs. -/
def get_last_segment (segments : List String) : Option String :=
  segments.getLast?

/-- The last segment with the empty-string default, as add_visit computes it
via unwrap_or_default. -/
def lastSegmentD (segments : List String) : String :=
  (get_last_segment segments).getD ("")

/- ### Pattern matcher (src/src/database.rs, does_pattern_match_segments) -/

/-- Anchor comparison between one pattern token and one URL segment, as the
first/last checks of does_pattern_match_segments perform it: exact ASCII
case-insensitive equality for tokens of byte length below 3, otherwise a
Skim fuzzy match of the token against the segment. -/
def anchorOk (patTok urlSeg : String) : Bool :=
  if rustLen patTok < 3 then eqIgnoreAsciiCase patTok urlSeg
  else skimIsMatch urlSeg patTok

/-- Anchor comparison lifted to the optional first/last elements, mirroring
the if-let structure of the Rust code: when either side is absent the check
is skipped. -/
def anchorPairOk : Option String → Option String → Bool
  | some p, some u => anchorOk p u
  | _, _ => true

/-- Suffix of the segment list strictly after the first exact occurrence of a
token, or none: one step of the forward ordering scan (slice position then
cursor advance past the hit). -/
def dropThrough (p : String) : List String → Option (List String)
  | [] => none
  | x :: xs => if x = p then some xs else dropThrough p xs

/-- The exact-equality forward ordering scan of does_pattern_match_segments:
each pattern token must be found in the remaining stored segments, and the
cursor advances past each hit. -/
def orderedScan : List String → List String → Bool
  | _, [] => true
  | rem, p :: ps =>
    match dropThrough p rem with
    | some rest => orderedScan rest ps
    | none => false

/-- Embedding of does_pattern_match_segments from src/src/database.rs: an
empty pattern matches vacuously; otherwise the first and last anchor checks
and the exact forward ordering scan must all succeed. -/
def does_pattern_match_segments (urlSegments pat : List String) : Bool :=
  if pat.isEmpty then true
  else
    anchorPairOk pat.head? urlSegments.head?
      && anchorPairOk pat.getLast? urlSegments.getLast?
      && orderedScan urlSegments pat

/- ### Frecency (src/src/database.rs, calculate_frecency) -/

/-- Embedding of calculate_frecency from src/src/database.rs, with the clock
reading passed explicitly (the Rust code reads SystemTime::now internally;
the spec requires the clock to be injectable). Scores are modelled as
rationals: every value the code manipulates (integral scores times the four
step multipliers) is exactly representable in f64, so rational arithmetic is
exact for them. -/
def calculate_frecency (score : ℚ) (lastAccessed now : ℤ) : ℚ :=
  let secondsAgo := now - lastAccessed
  let multiplier : ℚ :=
    if secondsAgo < 3600 then 4
    else if secondsAgo < 86400 then 2
    else if secondsAgo < 604800 then 1/2
    else 1/4
  score * multiplier

/- ### The history store (src/src/database.rs, SqliteDatabase) -/

/-- One row of the urls table. -/
structure VisitRecord where
  url : String
  segments : List String
  lastSegment : String
  score : ℚ
  lastAccessed : ℤ
deriving DecidableEq

/-- The urls table, modelled as a list of rows in insertion order; full_url
is the unique conflict key. -/
abbrev Db := List VisitRecord

/-- Embedding of add_visit from src/src/database.rs: extract the segments
(failing on an unparsable URL), then upsert on the URL — on conflict only
score is incremented by 1.0 and last_accessed overwritten with the supplied
timestamp, otherwise a fresh row with score 1.0 is inserted. -/
def add_visit (db : Db) (url : String) (timestamp : ℤ) : Option Db :=
  (extract_segments url).map fun segments =>
    if db.any (fun r => r.url == url) then
      db.map fun r =>
        if r.url == url then
          { r with score := r.score + 1, lastAccessed := timestamp }
        else r
    else
      db ++ [⟨url, segments, lastSegmentD segments, 1, timestamp⟩]

/-- Embedding of fuzzy_match from src/src/database.rs: an empty pattern
returns no rows; otherwise rows are pre-filtered on last_segment equal to
the pattern's last token under the NOCASE collation (ASCII
case-insensitive), the full pattern matcher is applied to each survivor,
matches are paired with their frecency, and the result is sorted descending
by frecency with a stable sort (Rust sort_by with the reversed comparison;
any stable sort agrees with it, here insertion sort). -/
def fuzzy_match (db : Db) (pat : List String) (now : ℤ) :
    List (String × ℚ × ℤ) :=
  if pat.isEmpty then []
  else
    let lastTok := pat.getLast?.getD ("")
    let rows := db.filter fun r => eqIgnoreAsciiCase r.lastSegment lastTok
    let found := rows.filterMap fun r =>
      if does_pattern_match_segments r.segments pat then
        some (r.url, calculate_frecency r.score r.lastAccessed now, r.lastAccessed)
      else none
    List.insertionSort (fun a b => b.2.1 ≤ a.2.1) found

/-- Embedding of get_best_match from src/src/database.rs: the URL of the
first fuzzy_match result, if any. -/
def get_best_match (db : Db) (pat : List String) (now : ℤ) : Option String :=
  ((fuzzy_match db pat now).head?).map (fun x => x.1)

/- ### URL pruning (src/src/database.rs, prune_by_url_pattern) -/

/-- Replacement of every backslash-dot escape by a plain dot, as Rust
str replace performs it (left to right, non-overlapping). -/
def unescapeDots : List Char → List Char
  | '\\' :: '.' :: rest => '.' :: unescapeDots rest
  | c :: rest => c :: unescapeDots rest
  | [] => []

/-- Removal of every leading caret, as Rust trim_start_matches does. -/
def trimStartCarets (l : List Char) : List Char :=
  l.dropWhile (fun c => c = '^')

/-- Removal of every trailing dollar sign, as Rust trim_end_matches does. -/
def trimEndDollars (l : List Char) : List Char :=
  (l.reverse.dropWhile (fun c => c = '$')).reverse

/-- Embedding of convert_pattern_to_like from src/src/database.rs: unescape
backslash-dot, then translate the caret and dollar anchors into an SQL LIKE
pattern (exact body, body-percent, percent-body, or percent-body-percent). -/
def convert_pattern_to_like (pat : String) : String :=
  if (unescapeDots pat.data).head? = some '^' ∧ (unescapeDots pat.data).getLast? = some '$' then
    String.mk (trimEndDollars (trimStartCarets (unescapeDots pat.data)))
  else if (unescapeDots pat.data).head? = some '^' then
    String.mk (trimStartCarets (unescapeDots pat.data) ++ [('%')])
  else if (unescapeDots pat.data).getLast? = some '$' then
    String.mk ('%' :: trimEndDollars (unescapeDots pat.data))
  else
    String.mk ('%' :: unescapeDots pat.data ++ [('%')])

/-- Modelled from SQLite's LIKE operator with its default settings and no
ESCAPE clause, as the DELETE statement of prune_by_url_pattern uses it: a
percent sign matches any character sequence, an underscore matches exactly
one character, and every other pattern character compares ASCII
case-insensitively. -/
def likeMatch : List Char → List Char → Bool
  | [], ts => ts.isEmpty
  | p :: ps, ts =>
    if p = '%' then
      ts.tails.any (fun suf => likeMatch ps suf)
    else
      match ts with
      | [] => false
      | t :: ts2 =>
        (if p = '_' then true else decide (lowerCh p = lowerCh t)) && likeMatch ps ts2

/-- Embedding of prune_by_url_pattern from src/src/database.rs: convert the
pattern, delete every row whose full_url satisfies LIKE, and return the
remaining table together with the number of rows removed. -/
def prune_by_url_pattern (db : Db) (pat : String) : Db × Nat :=
  (db.filter (fun r => !(likeMatch (convert_pattern_to_like pat).data r.url.data)),
   (db.filter (fun r => likeMatch (convert_pattern_to_like pat).data r.url.data)).length)

/- ### The specification's reading of the prune pattern semantics -/

/-- Boolean prefix test on character lists (needle first). -/
def startsWithL : List Char → List Char → Bool
  | [], _ => true
  | _ :: _, [] => false
  | a :: as, b :: bs => decide (a = b) && startsWithL as bs

/-- Boolean suffix test on character lists (needle first). -/
def endsWithL (q s : List Char) : Bool :=
  startsWithL q.reverse s.reverse

/-- Boolean substring-containment test on character lists (needle first). -/
def containsL (q : List Char) : List Char → Bool
  | [] => startsWithL q []
  | b :: bs => startsWithL q (b :: bs) || containsL q bs

/-- The anchor-aware url-pattern semantics exactly as the specification
words it (written from the spec for comparison with the code, not from the
source): after unescaping backslash-dot, a pattern with both anchors
requires an exact match of the stripped body, a leading caret a prefix
match, a trailing dollar a suffix match, and no anchors a substring match —
all with plain case-sensitive string comparison, which is what "exact
match", "prefix", "suffix" and "contains" denote there. -/
def specPatternMatch (pat url : String) : Bool :=
  if (unescapeDots pat.data).head? = some '^' ∧ (unescapeDots pat.data).getLast? = some '$' then
    decide (url.data = trimEndDollars (trimStartCarets (unescapeDots pat.data)))
  else if (unescapeDots pat.data).head? = some '^' then
    startsWithL (trimStartCarets (unescapeDots pat.data)) url.data
  else if (unescapeDots pat.data).getLast? = some '$' then
    endsWithL (trimEndDollars (unescapeDots pat.data)) url.data
  else
    containsL (unescapeDots pat.data) url.data

/-- The anchor-aware url-pattern semantics with comparisons taken ASCII
case-insensitively: the amended reading of the spec's exact/prefix/suffix/
substring rule, which the code realizes through SQLite LIKE for patterns
free of LIKE wildcards. -/
def specPatternMatchCI (pat url : String) : Bool :=
  if (unescapeDots pat.data).head? = some '^' ∧ (unescapeDots pat.data).getLast? = some '$' then
    decide (url.data.map lowerCh
      = (trimEndDollars (trimStartCarets (unescapeDots pat.data))).map lowerCh)
  else if (unescapeDots pat.data).head? = some '^' then
    startsWithL ((trimStartCarets (unescapeDots pat.data)).map lowerCh) (url.data.map lowerCh)
  else if (unescapeDots pat.data).getLast? = some '$' then
    endsWithL ((trimEndDollars (unescapeDots pat.data)).map lowerCh) (url.data.map lowerCh)
  else
    containsL ((unescapeDots pat.data).map lowerCh) (url.data.map lowerCh)

/- ### Helper lemmas -/

/-- Success of one scan step yields the token followed by the returned
remainder as a subsequence of the scanned list. -/
theorem dropThrough_sublist {p : String} :
    ∀ {l rest : List String}, dropThrough p l = some rest → (p :: rest).Sublist l := by
  intro l
  induction l with
  | nil => intro rest h; simp [dropThrough] at h
  | cons x xs ih =>
    intro rest h
    unfold dropThrough at h
    by_cases hx : x = p
    · rw [if_pos hx] at h
      cases h
      exact hx ▸ List.Sublist.refl (x :: xs)
    · rw [if_neg hx] at h
      exact List.Sublist.cons x (ih h)

/-- Soundness of the forward ordering scan: when it succeeds, the pattern is
an order-preserving (gaps allowed) subsequence of the stored segments under
exact equality. -/
theorem orderedScan_sublist :
    ∀ (pat rem : List String), orderedScan rem pat = true → pat.Sublist rem := by
  intro pat
  induction pat with
  | nil => intro rem _; exact List.nil_sublist rem
  | cons p ps ih =>
    intro rem h
    unfold orderedScan at h
    cases hd : dropThrough p rem with
    | none => rw [hd] at h; exact absurd h (by simp)
    | some rest =>
      rw [hd] at h
      exact ((ih rest h).cons₂ p).trans (dropThrough_sublist hd)

/- ### Claims -/

/-- Claim C1 (code bug): the specification and the repository's own unit
tests require the leading token of extract_segments to be the registrable
host label (github, example), but the code pushes the full lower-cased
domain returned by Url domain, so the leading token is github.com and the
test's expected value is not produced. -/
theorem extract_segments_stores_full_host :
    extract_segments ("https://github.com/rust-lang/rust")
      = some [("github.com"), ("rust-lang"), ("rust")]
    ∧ extract_segments ("https://api.example.com/")
      = some [("api.example.com")]
    ∧ extract_segments ("https://github.com/rust-lang/rust")
      ≠ some [("github"), ("rust-lang"), ("rust")] :=
  ⟨by decide, by decide, by decide⟩

/-- Claim C2: a successful match of a non-empty pattern against non-empty
stored segments forces the first pattern token to anchor-match the first
stored segment and the last pattern token to anchor-match the last stored
segment, where the anchor comparison is exact ASCII case-insensitive
equality for tokens shorter than 3 bytes and otherwise a fuzzy
subsequence-similarity test in which any found score counts; in particular
github/issues matches github/rust/issues but neither github/issues/rust nor
gitlab/rust/issues. -/
theorem pattern_match_requires_anchors :
    (∀ (segs pat : List String) (p u q v : String),
        does_pattern_match_segments segs pat = true →
        pat.head? = some p → segs.head? = some u →
        pat.getLast? = some q → segs.getLast? = some v →
        anchorOk p u = true ∧ anchorOk q v = true)
    ∧ does_pattern_match_segments
        [("github"), ("rust"), ("issues")] [("github"), ("issues")] = true
    ∧ does_pattern_match_segments
        [("github"), ("issues"), ("rust")] [("github"), ("issues")] = false
    ∧ does_pattern_match_segments
        [("gitlab"), ("rust"), ("issues")] [("github"), ("issues")] = false := by
  refine ⟨?_, by decide, by decide, by decide⟩
  intro segs pat p u q v hm hp hu hq hv
  have hne : pat.isEmpty = false := by
    cases pat with
    | nil => exact absurd hp (by simp)
    | cons a as => rfl
  unfold does_pattern_match_segments at hm
  rw [hne, if_neg (by simp)] at hm
  simp only [Bool.and_eq_true] at hm
  rw [hp, hu, hq, hv] at hm
  exact ⟨hm.1.1, hm.1.2⟩

/-- Witness for Claim C2 at a concrete input: the anchor conclusions hold
for the matching github/rust/issues example. -/
theorem pattern_match_requires_anchors_witness :
    anchorOk ("github") ("github") = true ∧ anchorOk ("issues") ("issues") = true :=
  pattern_match_requires_anchors.1
    [("github"), ("rust"), ("issues")] [("github"), ("issues")]
    ("github") ("github") ("issues") ("issues")
    (by decide) (by decide) (by decide) (by decide) (by decide)

/-- Claim C3: a successful match requires the exact-equality forward
ordering scan to succeed, and hence all pattern tokens, anchors included,
to occur in the stored sequence in the same relative order with unlimited
gaps; in particular github/rust/issues matches
github/microsoft/rust/foo/bar/issues. -/
theorem pattern_match_ordered_subsequence :
    (∀ (segs pat : List String),
        does_pattern_match_segments segs pat = true → orderedScan segs pat = true)
    ∧ (∀ (segs pat : List String),
        does_pattern_match_segments segs pat = true → pat.Sublist segs)
    ∧ does_pattern_match_segments
        [("github"), ("microsoft"), ("rust"), ("foo"), ("bar"), ("issues")]
        [("github"), ("rust"), ("issues")] = true := by
  have hscan : ∀ (segs pat : List String),
      does_pattern_match_segments segs pat = true → orderedScan segs pat = true := by
    intro segs pat hm
    unfold does_pattern_match_segments at hm
    cases hpat : pat.isEmpty with
    | true =>
      have : pat = [] := by
        cases pat with
        | nil => rfl
        | cons a as => exact absurd hpat (by simp)
      rw [this]
      rfl
    | false =>
      rw [hpat, if_neg (by simp)] at hm
      simp only [Bool.and_eq_true] at hm
      exact hm.2
  exact ⟨hscan, fun segs pat hm => orderedScan_sublist pat segs (hscan segs pat hm),
    by decide⟩

/-- Witness for Claim C3 at a concrete input: the ordering-with-gaps
example, with the subsequence conclusion instantiated. -/
theorem pattern_match_ordered_subsequence_witness :
    List.Sublist [("github"), ("rust"), ("issues")]
      [("github"), ("microsoft"), ("rust"), ("foo"), ("bar"), ("issues")] :=
  pattern_match_ordered_subsequence.2.1
    [("github"), ("microsoft"), ("rust"), ("foo"), ("bar"), ("issues")]
    [("github"), ("rust"), ("issues")] (by decide)

/-- Claim C7: frecency is the score multiplied by a step function of the
elapsed time now minus last_accessed, with multiplier 4 under one hour, 2
under one day, one half under one week, and one quarter at one week or
more. -/
theorem calculate_frecency_step_function (score : ℚ) (lastAccessed now : ℤ) :
    (now - lastAccessed < 3600 →
      calculate_frecency score lastAccessed now = score * 4)
    ∧ (3600 ≤ now - lastAccessed → now - lastAccessed < 86400 →
      calculate_frecency score lastAccessed now = score * 2)
    ∧ (86400 ≤ now - lastAccessed → now - lastAccessed < 604800 →
      calculate_frecency score lastAccessed now = score * (1/2))
    ∧ (604800 ≤ now - lastAccessed →
      calculate_frecency score lastAccessed now = score * (1/4)) := by
  have e : calculate_frecency score lastAccessed now
      = score * (if now - lastAccessed < 3600 then (4:ℚ)
          else if now - lastAccessed < 86400 then 2
          else if now - lastAccessed < 604800 then 1/2 else 1/4) := by
    simp [calculate_frecency]
  refine ⟨fun h1 => ?_, fun h1 h2 => ?_, fun h1 h2 => ?_, fun h1 => ?_⟩
  · rw [e, if_pos h1]
  · rw [e, if_neg (by omega), if_pos h2]
  · rw [e, if_neg (by omega), if_neg (by omega), if_pos h2]
  · rw [e, if_neg (by omega), if_neg (by omega), if_neg (by omega)]

/-- Lookup after the conflict-update step: the first record carrying the
conflicting URL is found with its score incremented and its last_accessed
overwritten, and no other record moves. -/
theorem find?_map_update {url : String} {ts : ℤ} :
    ∀ {db : Db} {r : VisitRecord},
      db.find? (fun s => s.url == url) = some r →
      (db.map fun s =>
          if s.url == url then { s with score := s.score + 1, lastAccessed := ts }
          else s).find? (fun s => s.url == url)
        = some { r with score := r.score + 1, lastAccessed := ts } := by
  intro db
  induction db with
  | nil => intro r h; simp at h
  | cons x xs ih =>
    intro r h
    cases hx : (x.url == url) with
    | true =>
      have hfx : List.find? (fun s => s.url == url) (x :: xs) = some x := by
        rw [List.find?_cons]
        simp [hx]
      rw [hfx] at h
      injection h with h
      subst h
      simp only [List.map_cons]
      rw [if_pos hx]
      exact List.find?_cons_of_pos _ hx
    | false =>
      have hfx : List.find? (fun s => s.url == url) (x :: xs)
          = List.find? (fun s => s.url == url) xs := by
        rw [List.find?_cons]
        simp [hx]
      rw [hfx] at h
      simp only [List.map_cons]
      rw [if_neg (by simp [hx])]
      rw [List.find?_cons]
      have hx2 : (x.url == url) = false := hx
      simp only [hx2]
      exact ih h

/-- Claim C4: for a URL that parses into segments, add_visit is an upsert —
a fresh URL is appended as a record with score 1 and the supplied
timestamp, a known URL has its sole record updated in place (same length,
score incremented by one, last_accessed overwritten), and two visits from
an empty store with increasing timestamps leave exactly one record with
score 2 and the later timestamp. -/
theorem add_visit_upsert :
    ∀ (url : String) (segs : List String), extract_segments url = some segs →
      (∀ (db : Db) (ts : ℤ), (∀ r ∈ db, r.url ≠ url) →
          add_visit db url ts
            = some (db ++ [⟨url, segs, lastSegmentD segs, 1, ts⟩]))
      ∧ (∀ (db : Db) (ts : ℤ) (r : VisitRecord),
          db.find? (fun s => s.url == url) = some r →
          ∃ db', add_visit db url ts = some db'
            ∧ db'.length = db.length
            ∧ db'.find? (fun s => s.url == url)
                = some { r with score := r.score + 1, lastAccessed := ts })
      ∧ (∀ ts₁ ts₂ : ℤ, ts₁ ≤ ts₂ →
          (add_visit [] url ts₁).bind (fun d => add_visit d url ts₂)
            = some [⟨url, segs, lastSegmentD segs, 1 + 1, ts₂⟩]) := by
  intro url segs hseg
  refine ⟨?_, ?_, ?_⟩
  · intro db ts hfresh
    have hany : db.any (fun r => r.url == url) = false := by
      rw [List.any_eq_false]
      intro r hr
      simpa using hfresh r hr
    simp [add_visit, hseg, hany]
  · intro db ts r hfind
    have hmem := List.mem_of_find?_eq_some hfind
    have hp := List.find?_some hfind
    have hany : db.any (fun s => s.url == url) = true :=
      List.any_eq_true.mpr ⟨r, hmem, hp⟩
    exact ⟨_, by simp [add_visit, hseg, hany], by simp, find?_map_update hfind⟩
  · intro ts₁ ts₂ _
    have h1 : add_visit [] url ts₁
        = some [⟨url, segs, lastSegmentD segs, 1, ts₁⟩] := by
      simp [add_visit, hseg]
    rw [h1]
    show add_visit [⟨url, segs, lastSegmentD segs, 1, ts₁⟩] url ts₂ = _
    have hany : ([⟨url, segs, lastSegmentD segs, 1, ts₁⟩] : Db).any
        (fun s => s.url == url) = true := by simp
    simp [add_visit, hseg, hany]

/-- Witness for Claim C4 at a concrete URL: fresh insert, in-place update,
and the double-visit consequence. -/
theorem add_visit_upsert_witness :
    (add_visit [] ("https://github.com/a/b") 5
      = some [⟨("https://github.com/a/b"), [("github.com"), ("a"), ("b")], ("b"), 1, 5⟩])
    ∧ (∃ db', add_visit
          [⟨("https://github.com/a/b"), [("github.com"), ("a"), ("b")], ("b"), 1, 5⟩]
          ("https://github.com/a/b") 9 = some db'
        ∧ db'.length = 1
        ∧ db'.find? (fun s => s.url == ("https://github.com/a/b"))
            = some ⟨("https://github.com/a/b"), [("github.com"), ("a"), ("b")], ("b"),
                1 + 1, 9⟩)
    ∧ ((add_visit [] ("https://github.com/a/b") 3).bind
          (fun d => add_visit d ("https://github.com/a/b") 7)
        = some [⟨("https://github.com/a/b"), [("github.com"), ("a"), ("b")], ("b"),
            1 + 1, 7⟩]) := by
  have h := add_visit_upsert ("https://github.com/a/b")
    [("github.com"), ("a"), ("b")] (by decide)
  refine ⟨?_, ?_, h.2.2 3 7 (by decide)⟩
  · have := h.1 [] 5 (by simp)
    simpa using this
  · have := h.2.1 [⟨("https://github.com/a/b"), [("github.com"), ("a"), ("b")], ("b"), 1, 5⟩]
      9 ⟨("https://github.com/a/b"), [("github.com"), ("a"), ("b")], ("b"), 1, 5⟩ (by decide)
    simpa using this

/-- Counterexample to Claim C5 as stated: add_visit overwrites
last_accessed with whatever timestamp the clock supplies, so when the clock
runs backwards (second visit at 50 after a first visit at 100) the stored
last_accessed decreases from 100 to 50. -/
theorem last_accessed_decreases_on_backward_clock :
    add_visit [] ("https://example.com/x") 100
      = some [⟨("https://example.com/x"), [("example.com"), ("x")], ("x"), 1, 100⟩]
    ∧ ((add_visit [] ("https://example.com/x") 100).bind
        (fun d => add_visit d ("https://example.com/x") 50))
      = some [⟨("https://example.com/x"), [("example.com"), ("x")], ("x"), 1 + 1, 50⟩]
    ∧ (50 : ℤ) < 100 := by
  have h1 : add_visit [] ("https://example.com/x") 100
      = some [⟨("https://example.com/x"), [("example.com"), ("x")], ("x"), 1, 100⟩] := by
    decide
  refine ⟨h1, ?_, by decide⟩
  rw [h1]
  show add_visit [⟨("https://example.com/x"), [("example.com"), ("x")], ("x"), 1, 100⟩]
      ("https://example.com/x") 50 = _
  have hany : ([⟨("https://example.com/x"), [("example.com"), ("x")], ("x"), 1, 100⟩] : Db).any
      (fun s => s.url == ("https://example.com/x")) = true := by decide
  have hseg : extract_segments ("https://example.com/x")
      = some [("example.com"), ("x")] := by decide
  simp [add_visit, hseg, hany]

/-- Claim C5 amended: provided the supplied timestamp is not earlier than
the record's current last_accessed (a forward-running clock), the update
overwrites last_accessed with that timestamp, so the field never decreases
across updates. -/
theorem last_accessed_monotone_of_le :
    ∀ (db : Db) (url : String) (ts : ℤ) (r : VisitRecord) (db' : Db),
      db.find? (fun s => s.url == url) = some r →
      r.lastAccessed ≤ ts →
      add_visit db url ts = some db' →
      db'.find? (fun s => s.url == url)
          = some { r with score := r.score + 1, lastAccessed := ts }
      ∧ r.lastAccessed ≤ ts := by
  intro db url ts r db' hfind hle hadd
  refine ⟨?_, hle⟩
  have hmem := List.mem_of_find?_eq_some hfind
  have hp := List.find?_some hfind
  have hany : db.any (fun s => s.url == url) = true :=
    List.any_eq_true.mpr ⟨r, hmem, hp⟩
  unfold add_visit at hadd
  cases hseg : extract_segments url with
  | none => rw [hseg] at hadd; exact absurd hadd (by simp)
  | some segs =>
    rw [hseg] at hadd
    simp only [Option.map_some', Option.some.injEq, hany, if_pos] at hadd
    subst hadd
    exact find?_map_update hfind

/-- Witness for Claim C5's amended theorem at a concrete input: a record
last visited at 100 revisited at 150. -/
theorem last_accessed_monotone_of_le_witness :
    ([⟨("https://example.com/x"), [("example.com"), ("x")], ("x"), 1 + 1, 150⟩] : Db).find?
        (fun s => s.url == ("https://example.com/x"))
      = some ⟨("https://example.com/x"), [("example.com"), ("x")], ("x"), 1 + 1, 150⟩
    ∧ (100 : ℤ) ≤ 150 := by
  have hadd : add_visit
      [⟨("https://example.com/x"), [("example.com"), ("x")], ("x"), 1, 100⟩]
      ("https://example.com/x") 150
      = some [⟨("https://example.com/x"), [("example.com"), ("x")], ("x"), 1 + 1, 150⟩] := by
    have hany : ([⟨("https://example.com/x"), [("example.com"), ("x")], ("x"), 1, 100⟩] : Db).any
        (fun s => s.url == ("https://example.com/x")) = true := by decide
    have hseg : extract_segments ("https://example.com/x")
        = some [("example.com"), ("x")] := by decide
    simp [add_visit, hseg, hany]
  exact last_accessed_monotone_of_le
    [⟨("https://example.com/x"), [("example.com"), ("x")], ("x"), 1, 100⟩]
    ("https://example.com/x") 150
    ⟨("https://example.com/x"), [("example.com"), ("x")], ("x"), 1, 100⟩
    [⟨("https://example.com/x"), [("example.com"), ("x")], ("x"), 1 + 1, 150⟩]
    (by decide) (by decide) hadd

/-- Counterexample to Claim C6 as stated: for a URL whose host is an IP
address (a host component is present), Url domain is None and the root path
contributes nothing, so the stored segments are empty and the cached last
segment is the empty string. -/
theorem segments_empty_for_ip_host :
    parseUrl ("https://127.0.0.1/") = some ⟨("127.0.0.1"), true, [("")]⟩
    ∧ extract_segments ("https://127.0.0.1/") = some []
    ∧ add_visit [] ("https://127.0.0.1/") 5
        = some [⟨("https://127.0.0.1/"), [], (""), 1, 5⟩]
    ∧ ("127.0.0.1") ≠ ("") :=
  ⟨by decide, by decide, by decide, by decide⟩

/-- Claim C6 amended: when the visited URL's host is a domain (not an IP
address), the extracted segments start with the lower-cased host and are
non-empty, and every record that add_visit creates or updates for that URL
in a well-formed store keeps non-empty segments. -/
theorem segments_nonempty_of_domain_host :
    ∀ (url : String) (u : ParsedUrl),
      parseUrl url = some u → u.hostIsIp = false →
      ∃ segs, extract_segments url = some segs ∧ segs ≠ []
        ∧ segs.head? = some (strToLower u.host)
        ∧ ∀ (db : Db) (ts : ℤ) (db' : Db),
            (∀ r ∈ db, extract_segments r.url = some r.segments) →
            add_visit db url ts = some db' →
            ∀ r ∈ db', r.url = url → r.segments ≠ [] := by
  intro url u hu hip
  have hseg : extract_segments url
      = some ((strToLower u.host) ::
          ((u.rawPathSegments.filter (fun s => ¬ s.isEmpty)).map strToLower)) := by
    simp [extract_segments, hu, hip]
  refine ⟨_, hseg, by simp, rfl, ?_⟩
  intro db ts db' hwf hadd r hr hurl
  unfold add_visit at hadd
  rw [hseg] at hadd
  simp only [Option.map_some', Option.some.injEq] at hadd
  by_cases hany : db.any (fun s => s.url == url) = true
  · rw [if_pos hany] at hadd
    rw [hadd.symm] at hr
    rcases List.mem_map.mp hr with ⟨s, hs, hsr⟩
    have hsegr : r.segments = s.segments := by
      by_cases hcase : (s.url == url) = true
      · rw [if_pos hcase] at hsr; rw [hsr.symm]
      · rw [if_neg hcase] at hsr; rw [hsr.symm]
    have hsurl : s.url = url := by
      by_cases hcase : (s.url == url) = true
      · exact beq_iff_eq.mp hcase
      · rw [if_neg hcase] at hsr
        rw [hsr] at hcase
        exact absurd (beq_iff_eq.mpr hurl) hcase
    have := hwf s hs
    rw [hsurl, hseg] at this
    rw [hsegr]
    injection this with this
    rw [this.symm]
    simp
  · rw [if_neg hany] at hadd
    rw [hadd.symm] at hr
    rcases List.mem_append.mp hr with hin | hnew
    · have : ¬ (r.url == url) = true := by
        intro hc
        exact hany (List.any_eq_true.mpr ⟨r, hin, hc⟩)
      exact absurd (beq_iff_eq.mpr hurl) this
    · have hq := List.mem_singleton.mp hnew
      rw [hq]
      simp

/-- Witness for Claim C6's amended theorem at a concrete domain-host URL. -/
theorem segments_nonempty_of_domain_host_witness :
    ∃ segs, extract_segments ("https://example.com/a") = some segs ∧ segs ≠ []
      ∧ segs.head? = some (strToLower ("example.com"))
      ∧ ∀ (db : Db) (ts : ℤ) (db' : Db),
          (∀ r ∈ db, extract_segments r.url = some r.segments) →
          add_visit db ("https://example.com/a") ts = some db' →
          ∀ r ∈ db', r.url = ("https://example.com/a") → r.segments ≠ [] :=
  segments_nonempty_of_domain_host ("https://example.com/a")
    ⟨("example.com"), false, [("a")]⟩ (by decide) (by decide)

/-- Witness for Claim C7 at concrete inputs, one per step of the
multiplier. -/
theorem calculate_frecency_step_function_witness :
    calculate_frecency 3 0 100 = 3 * 4
    ∧ calculate_frecency 3 0 5000 = 3 * 2
    ∧ calculate_frecency 3 0 100000 = 3 * (1/2)
    ∧ calculate_frecency 3 0 700000 = 3 * (1/4) :=
  ⟨(calculate_frecency_step_function 3 0 100).1 (by decide),
   (calculate_frecency_step_function 3 0 5000).2.1 (by decide) (by decide),
   (calculate_frecency_step_function 3 0 100000).2.2.1 (by decide) (by decide),
   (calculate_frecency_step_function 3 0 700000).2.2.2 (by decide)⟩

/-- Claim C8: fuzzy_match returns its results sorted descending by
frecency, get_best_match is the URL of the first element (none on an empty
result), and for two matching records of equal score where one was visited
within the last hour and the other over a week ago, the recent one ranks
first. -/
theorem fuzzy_match_sorted_best_first :
    (∀ (db : Db) (pat : List String) (now : ℤ),
        List.Pairwise (fun a b => b.2.1 ≤ a.2.1) (fuzzy_match db pat now))
    ∧ (∀ (db : Db) (pat : List String) (now : ℤ),
        get_best_match db pat now = ((fuzzy_match db pat now).head?).map (fun x => x.1))
    ∧ (∀ (db : Db) (now : ℤ), get_best_match db [] now = none)
    ∧ (fuzzy_match
        [⟨("https://example.com/a/page"), [("example.com"), ("a"), ("page")], ("page"),
            4, 1300000⟩,
         ⟨("https://example.com/b/page"), [("example.com"), ("b"), ("page")], ("page"),
            4, 1999900⟩]
        [("example.com"), ("page")] 2000000).map (fun x => x.1)
      = [("https://example.com/b/page"), ("https://example.com/a/page")] := by
  refine ⟨?_, fun db pat now => rfl, fun db now => rfl, ?_⟩
  · intro db pat now
    unfold fuzzy_match
    by_cases hp : pat.isEmpty = true
    · rw [if_pos hp]
      exact List.Pairwise.nil
    · rw [if_neg hp]
      haveI : IsTotal (String × ℚ × ℤ) (fun a b => b.2.1 ≤ a.2.1) :=
        ⟨fun a b => le_total b.2.1 a.2.1⟩
      haveI : IsTrans (String × ℚ × ℤ) (fun a b => b.2.1 ≤ a.2.1) :=
        ⟨fun a b c hab hbc => le_trans hbc hab⟩
      exact List.sorted_insertionSort
        (fun (a b : String × ℚ × ℤ) => b.2.1 ≤ a.2.1) _
  · have h1 : calculate_frecency 4 1300000 2000000 = 1 := by
      norm_num [calculate_frecency]
    have h2 : calculate_frecency 4 1999900 2000000 = 16 := by
      norm_num [calculate_frecency]
    have e : fuzzy_match
        [⟨("https://example.com/a/page"), [("example.com"), ("a"), ("page")], ("page"),
            4, 1300000⟩,
         ⟨("https://example.com/b/page"), [("example.com"), ("b"), ("page")], ("page"),
            4, 1999900⟩]
        [("example.com"), ("page")] 2000000
        = [(("https://example.com/b/page"), 16, 1999900),
           (("https://example.com/a/page"), 1, 1300000)] := by
      simp +decide only [fuzzy_match, List.filter, List.filterMap, eqIgnoreAsciiCase]
      rw [h1, h2]
      decide
    rw [e]
    rfl

/-- Claim C10: every fuzzy_match result for a non-empty pattern comes from a
record whose cached last segment, equal in a well-formed store to the last
stored segment, matches the pattern's last token under exact ASCII
case-insensitive equality — the NOCASE pre-filter, so the fuzzy allowance on
the last anchor can never admit a merely-similar last segment. -/
theorem fuzzy_match_last_segment_exact :
    ∀ (db : Db) (pat : List String) (now : ℤ) (x : String × ℚ × ℤ),
      pat ≠ [] →
      (∀ r ∈ db, r.lastSegment = lastSegmentD r.segments) →
      x ∈ fuzzy_match db pat now →
      ∃ r ∈ db, r.url = x.1
        ∧ eqIgnoreAsciiCase (lastSegmentD r.segments) (pat.getLast?.getD ("")) = true := by
  intro db pat now x hne hwf hx
  unfold fuzzy_match at hx
  rw [if_neg (by simpa using hne)] at hx
  have hx2 := ((List.perm_insertionSort
      (fun (a b : String × ℚ × ℤ) => b.2.1 ≤ a.2.1) _).mem_iff).mp hx
  rcases List.mem_filterMap.mp hx2 with ⟨r, hrf, hres⟩
  rcases List.mem_filter.mp hrf with ⟨hrdb, hrp⟩
  by_cases hc : does_pattern_match_segments r.segments pat = true
  · rw [if_pos hc] at hres
    injection hres with hres
    refine ⟨r, hrdb, congrArg Prod.fst hres, ?_⟩
    rw [(hwf r hrdb).symm]
    exact hrp
  · rw [if_neg hc] at hres
    exact absurd hres (by simp)

/-- Witness for Claim C10 at a concrete store and pattern. -/
theorem fuzzy_match_last_segment_exact_witness :
    ∃ r ∈ ([⟨("https://e.com/page"), [("e.com"), ("page")], ("page"), 1, 0⟩] : Db),
      r.url = (("https://e.com/page"), (4 : ℚ), (0 : ℤ)).1
      ∧ eqIgnoreAsciiCase (lastSegmentD r.segments)
          (([("e.com"), ("page")] : List String).getLast?.getD ("")) = true := by
  have hf : calculate_frecency 1 0 0 = 4 := by norm_num [calculate_frecency]
  have e : fuzzy_match
      [⟨("https://e.com/page"), [("e.com"), ("page")], ("page"), 1, 0⟩]
      [("e.com"), ("page")] 0
      = [(("https://e.com/page"), (4 : ℚ), (0 : ℤ))] := by
    simp +decide only [fuzzy_match, List.filter, List.filterMap, eqIgnoreAsciiCase]
    rw [hf]
    decide
  exact fuzzy_match_last_segment_exact
    [⟨("https://e.com/page"), [("e.com"), ("page")], ("page"), 1, 0⟩]
    [("e.com"), ("page")] 0 (("https://e.com/page"), (4 : ℚ), (0 : ℤ))
    (by decide) (by decide) (by rw [e]; decide)

/- ### LIKE-matcher characterization lemmas -/

/-- Two booleans agreeing as propositions are equal. -/
theorem bool_eq_of_iff {a b : Bool} (h : a = true ↔ b = true) : a = b := by
  cases a <;> cases b <;> simp_all

/-- A character of the caret-trimmed list occurs in the original list. -/
theorem mem_trimStart {x : Char} {l : List Char} (h : x ∈ trimStartCarets l) : x ∈ l :=
  (List.dropWhile_sublist _).subset h

/-- A character of the dollar-trimmed list occurs in the original list. -/
theorem mem_trimEnd {x : Char} {l : List Char} (h : x ∈ trimEndDollars l) : x ∈ l := by
  unfold trimEndDollars at h
  rw [List.mem_reverse] at h
  have := (List.dropWhile_sublist _).subset h
  rwa [List.mem_reverse] at this

/-- Disjunction over the suffix list is existence of a drop index. -/
theorem tails_any_iff (f : List Char → Bool) :
    ∀ (t : List Char), (t.tails.any f = true ↔ ∃ n, f (t.drop n) = true) := by
  intro t
  induction t with
  | nil =>
    simp only [List.tails, List.any_cons, List.any_nil, Bool.or_false]
    constructor
    · intro h; exact ⟨0, h⟩
    · intro ⟨n, h⟩; simpa using h
  | cons a as ih =>
    simp only [List.tails, List.any_cons, Bool.or_eq_true]
    constructor
    · intro h
      rcases h with h | h
      · exact ⟨0, h⟩
      · rcases ih.mp h with ⟨n, hn⟩
        exact ⟨n + 1, hn⟩
    · intro ⟨n, hn⟩
      cases n with
      | zero => exact Or.inl hn
      | succ m => exact Or.inr (ih.mpr ⟨m, hn⟩)

/-- On a wildcard-free pattern, LIKE is ASCII case-insensitive equality. -/
theorem likeMatch_exact :
    ∀ (p t : List Char), ('%') ∉ p → ('_') ∉ p →
      (likeMatch p t = true ↔ p.map lowerCh = t.map lowerCh) := by
  intro p
  induction p with
  | nil =>
    intro t _ _
    cases t with
    | nil => simp [likeMatch]
    | cons d ds => simp [likeMatch]
  | cons c cs ih =>
    intro t h1 h2
    have hc1 : c ≠ '%' := fun h => h1 (h ▸ List.mem_cons_self c cs)
    have hc2 : c ≠ '_' := fun h => h2 (h ▸ List.mem_cons_self c cs)
    have hcs1 : ('%') ∉ cs := fun h => h1 (List.mem_cons_of_mem c h)
    have hcs2 : ('_') ∉ cs := fun h => h2 (List.mem_cons_of_mem c h)
    cases t with
    | nil =>
      unfold likeMatch
      rw [if_neg hc1]
      simp
    | cons d ds =>
      unfold likeMatch
      rw [if_neg hc1]
      simp only [if_neg hc2, Bool.and_eq_true, decide_eq_true_eq, List.map_cons,
        List.cons.injEq]
      rw [ih ds hcs1 hcs2]

/-- On a wildcard-free pattern followed by a percent, LIKE is an ASCII
case-insensitive prefix test. -/
theorem likeMatch_body_pct :
    ∀ (p t : List Char), ('%') ∉ p → ('_') ∉ p →
      (likeMatch (p ++ [('%')]) t = true
        ↔ startsWithL (p.map lowerCh) (t.map lowerCh) = true) := by
  intro p
  induction p with
  | nil =>
    intro t _ _
    simp only [List.nil_append, List.map_nil]
    constructor
    · intro _
      rfl
    · intro _
      unfold likeMatch
      rw [if_pos rfl]
      exact (tails_any_iff _ t).mpr ⟨t.length, by simp [likeMatch]⟩
  | cons c cs ih =>
    intro t h1 h2
    have hc1 : c ≠ '%' := fun h => h1 (h ▸ List.mem_cons_self c cs)
    have hc2 : c ≠ '_' := fun h => h2 (h ▸ List.mem_cons_self c cs)
    have hcs1 : ('%') ∉ cs := fun h => h1 (List.mem_cons_of_mem c h)
    have hcs2 : ('_') ∉ cs := fun h => h2 (List.mem_cons_of_mem c h)
    cases t with
    | nil =>
      rw [List.cons_append]
      unfold likeMatch
      rw [if_neg hc1]
      simp [startsWithL]
    | cons d ds =>
      rw [List.cons_append]
      unfold likeMatch
      rw [if_neg hc1]
      simp only [if_neg hc2, Bool.and_eq_true, decide_eq_true_eq, List.map_cons]
      rw [ih ds hcs1 hcs2]
      have hsw : startsWithL (lowerCh c :: cs.map lowerCh) (lowerCh d :: ds.map lowerCh)
          = (decide (lowerCh c = lowerCh d) && startsWithL (cs.map lowerCh) (ds.map lowerCh)) :=
        rfl
      rw [hsw]
      simp [Bool.and_eq_true, decide_eq_true_eq]

/-- The boolean prefix test means existence of a remainder. -/
theorem startsWithL_iff :
    ∀ (q s : List Char), (startsWithL q s = true ↔ ∃ r, s = q ++ r) := by
  intro q
  induction q with
  | nil =>
    intro s
    simp [startsWithL]
  | cons a as ih =>
    intro s
    cases s with
    | nil =>
      unfold startsWithL
      simp
    | cons b bs =>
      unfold startsWithL
      simp only [Bool.and_eq_true, decide_eq_true_eq, List.cons_append, List.cons.injEq]
      rw [ih bs]
      constructor
      · intro ⟨hab, r, hr⟩
        exact ⟨r, hab.symm, hr⟩
      · intro ⟨r, hab, hr⟩
        exact ⟨hab.symm, r, hr⟩

/-- The boolean suffix test means existence of a leading remainder. -/
theorem endsWithL_iff :
    ∀ (q s : List Char), (endsWithL q s = true ↔ ∃ r, s = r ++ q) := by
  intro q s
  unfold endsWithL
  rw [startsWithL_iff]
  constructor
  · intro ⟨r, hr⟩
    refine ⟨r.reverse, ?_⟩
    have := congrArg List.reverse hr
    simpa using this
  · intro ⟨r, hr⟩
    refine ⟨r.reverse, ?_⟩
    rw [hr]
    simp

/-- The boolean containment test means existence of surrounding
remainders. -/
theorem containsL_iff :
    ∀ (q s : List Char), (containsL q s = true ↔ ∃ a b, s = a ++ q ++ b) := by
  intro q s
  induction s with
  | nil =>
    unfold containsL
    rw [startsWithL_iff]
    constructor
    · intro ⟨r, hr⟩
      exact ⟨[], r, by simpa using hr⟩
    · intro ⟨a, b, hab⟩
      rcases List.append_eq_nil.mp (List.append_eq_nil.mp hab.symm).1 with ⟨ha, hq⟩
      exact ⟨[], by simp [hq]⟩
  | cons d ds ih =>
    unfold containsL
    simp only [Bool.or_eq_true]
    rw [startsWithL_iff, ih]
    constructor
    · intro h
      rcases h with ⟨r, hr⟩ | ⟨a, b, hab⟩
      · exact ⟨[], r, by simpa using hr⟩
      · exact ⟨d :: a, b, by simp [hab]⟩
    · intro ⟨a, b, hab⟩
      cases a with
      | nil =>
        exact Or.inl ⟨b, by simpa using hab⟩
      | cons x xs =>
        rw [List.cons_append, List.cons_append] at hab
        injection hab with hd htl
        exact Or.inr ⟨xs, b, htl⟩

/-- LIKE with a leading percent on a wildcard-free body is an ASCII
case-insensitive suffix test. -/
theorem likeMatch_pct_body :
    ∀ (p t : List Char), ('%') ∉ p → ('_') ∉ p →
      (likeMatch (('%') :: p) t = true
        ↔ endsWithL (p.map lowerCh) (t.map lowerCh) = true) := by
  intro p t h1 h2
  have hstep : likeMatch (('%') :: p) t = t.tails.any (fun suf => likeMatch p suf) := rfl
  rw [hstep, tails_any_iff, endsWithL_iff]
  constructor
  · intro ⟨n, hn⟩
    have hmp := (likeMatch_exact p _ h1 h2).mp hn
    refine ⟨(t.map lowerCh).take n, ?_⟩
    calc t.map lowerCh
        = (t.map lowerCh).take n ++ (t.map lowerCh).drop n := (List.take_append_drop n _).symm
      _ = (t.map lowerCh).take n ++ (t.drop n).map lowerCh := by rw [List.map_drop]
      _ = (t.map lowerCh).take n ++ p.map lowerCh := by rw [hmp.symm]
  · intro ⟨r, hr⟩
    refine ⟨r.length, (likeMatch_exact p _ h1 h2).mpr ?_⟩
    rw [List.map_drop, hr, List.drop_left]

/-- LIKE with percents on both sides of a wildcard-free body is an ASCII
case-insensitive substring test. -/
theorem likeMatch_pct_body_pct :
    ∀ (p t : List Char), ('%') ∉ p → ('_') ∉ p →
      (likeMatch (('%') :: (p ++ [('%')])) t = true
        ↔ containsL (p.map lowerCh) (t.map lowerCh) = true) := by
  intro p t h1 h2
  have hstep : likeMatch (('%') :: (p ++ [('%')])) t
      = t.tails.any (fun suf => likeMatch (p ++ [('%')]) suf) := rfl
  rw [hstep, tails_any_iff, containsL_iff]
  constructor
  · intro ⟨n, hn⟩
    rcases (startsWithL_iff _ _).mp ((likeMatch_body_pct p _ h1 h2).mp hn) with ⟨r, hr⟩
    rw [List.map_drop] at hr
    refine ⟨(t.map lowerCh).take n, r, ?_⟩
    calc t.map lowerCh
        = (t.map lowerCh).take n ++ (t.map lowerCh).drop n := (List.take_append_drop n _).symm
      _ = (t.map lowerCh).take n ++ (p.map lowerCh ++ r) := by rw [hr]
      _ = (t.map lowerCh).take n ++ p.map lowerCh ++ r := by rw [List.append_assoc]
  · intro ⟨a, b, hab⟩
    refine ⟨a.length, (likeMatch_body_pct p _ h1 h2).mpr ((startsWithL_iff _ _).mpr ⟨b, ?_⟩)⟩
    rw [List.map_drop, hab, List.append_assoc, List.drop_left]

/-- For wildcard-free inputs, the LIKE pattern that
convert_pattern_to_like produces realizes exactly the case-insensitive
anchor-aware semantics. -/
theorem likeMatch_convert_eq_spec :
    ∀ (pat : String), ('%') ∉ unescapeDots pat.data → ('_') ∉ unescapeDots pat.data →
      ∀ (url : String),
        likeMatch (convert_pattern_to_like pat).data url.data
          = specPatternMatchCI pat url := by
  intro pat h1 h2 url
  unfold convert_pattern_to_like specPatternMatchCI
  by_cases c1 : (unescapeDots pat.data).head? = some '^'
      ∧ (unescapeDots pat.data).getLast? = some '$'
  · rw [if_pos c1, if_pos c1]
    show likeMatch (trimEndDollars (trimStartCarets (unescapeDots pat.data))) url.data = _
    apply bool_eq_of_iff
    have hb1 : ('%') ∉ trimEndDollars (trimStartCarets (unescapeDots pat.data)) :=
      fun h => h1 (mem_trimStart (mem_trimEnd h))
    have hb2 : ('_') ∉ trimEndDollars (trimStartCarets (unescapeDots pat.data)) :=
      fun h => h2 (mem_trimStart (mem_trimEnd h))
    rw [likeMatch_exact _ _ hb1 hb2, decide_eq_true_eq]
    exact eq_comm
  · rw [if_neg c1, if_neg c1]
    by_cases c2 : (unescapeDots pat.data).head? = some '^'
    · rw [if_pos c2, if_pos c2]
      show likeMatch (trimStartCarets (unescapeDots pat.data) ++ [('%')]) url.data = _
      apply bool_eq_of_iff
      have hb1 : ('%') ∉ trimStartCarets (unescapeDots pat.data) :=
        fun h => h1 (mem_trimStart h)
      have hb2 : ('_') ∉ trimStartCarets (unescapeDots pat.data) :=
        fun h => h2 (mem_trimStart h)
      rw [likeMatch_body_pct _ _ hb1 hb2]
    · rw [if_neg c2, if_neg c2]
      by_cases c3 : (unescapeDots pat.data).getLast? = some '$'
      · rw [if_pos c3, if_pos c3]
        show likeMatch (('%') :: trimEndDollars (unescapeDots pat.data)) url.data = _
        apply bool_eq_of_iff
        have hb1 : ('%') ∉ trimEndDollars (unescapeDots pat.data) :=
          fun h => h1 (mem_trimEnd h)
        have hb2 : ('_') ∉ trimEndDollars (unescapeDots pat.data) :=
          fun h => h2 (mem_trimEnd h)
        rw [likeMatch_pct_body _ _ hb1 hb2]
      · rw [if_neg c3, if_neg c3]
        show likeMatch (('%') :: (unescapeDots pat.data ++ [('%')])) url.data = _
        apply bool_eq_of_iff
        rw [likeMatch_pct_body_pct _ _ h1 h2]

/-- Counterexample to Claim C9 as stated: SQLite LIKE, which the DELETE
uses, treats an underscore in the pattern as a single-character wildcard
and compares ASCII case-insensitively, so the pattern a_c deletes a record
whose URL merely contains abc, and an upper-case exact pattern deletes a
lower-case URL — in both cases records the claim's exact/substring
semantics would keep. -/
theorem prune_deletes_beyond_spec_semantics :
    prune_by_url_pattern
        [⟨("https://x.com/abc"), [("x.com"), ("abc")], ("abc"), 1, 0⟩] ("a_c")
      = ([], 1)
    ∧ specPatternMatch ("a_c") ("https://x.com/abc") = false
    ∧ prune_by_url_pattern
        [⟨("https://github.com/"), [("github.com")], ("github.com"), 1, 0⟩]
        ("^HTTPS://GITHUB\\.COM/$")
      = ([], 1)
    ∧ specPatternMatch ("^HTTPS://GITHUB\\.COM/$") ("https://github.com/") = false :=
  ⟨by decide, by decide, by decide, by decide⟩

/-- Claim C9 amended: for patterns whose unescaped form is free of the LIKE
wildcards percent and underscore, pruneByPattern deletes exactly the
records whose url satisfies the anchor-aware pattern under ASCII
case-insensitive comparison — exact equality for both anchors, prefix for a
leading caret, suffix for a trailing dollar, substring containment
otherwise, after unescaping backslash-dot — and returns the number of
records removed. -/
theorem prune_by_url_pattern_anchor_aware :
    ∀ (pat : String) (db : Db),
      ('%') ∉ unescapeDots pat.data → ('_') ∉ unescapeDots pat.data →
      prune_by_url_pattern db pat
        = (db.filter (fun r => !(specPatternMatchCI pat r.url)),
           (db.filter (fun r => specPatternMatchCI pat r.url)).length) := by
  intro pat db h1 h2
  have hfun := likeMatch_convert_eq_spec pat h1 h2
  unfold prune_by_url_pattern
  rw [show (fun (r : VisitRecord) =>
        !(likeMatch (convert_pattern_to_like pat).data r.url.data))
      = (fun r => !(specPatternMatchCI pat r.url)) from
      funext fun r => by rw [hfun r.url],
    show (fun (r : VisitRecord) =>
        likeMatch (convert_pattern_to_like pat).data r.url.data)
      = (fun r => specPatternMatchCI pat r.url) from
      funext fun r => by rw [hfun r.url]]

/-- Witness for Claim C9's amended theorem: the spec's own example — the
exact pattern for https://github.com/ removes only that record, not
https://github.com/rust. -/
theorem prune_by_url_pattern_anchor_aware_witness :
    prune_by_url_pattern
        [⟨("https://github.com/"), [("github.com")], ("github.com"), 1, 0⟩,
         ⟨("https://github.com/rust"), [("github.com"), ("rust")], ("rust"), 1, 0⟩]
        ("^https://github\\.com/$")
      = ([⟨("https://github.com/rust"), [("github.com"), ("rust")], ("rust"), 1, 0⟩], 1)
    ∧ specPatternMatchCI ("^https://github\\.com/$") ("https://github.com/") = true
    ∧ specPatternMatchCI ("^https://github\\.com/$") ("https://github.com/rust") = false := by
  have h := prune_by_url_pattern_anchor_aware ("^https://github\\.com/$")
    [⟨("https://github.com/"), [("github.com")], ("github.com"), 1, 0⟩,
     ⟨("https://github.com/rust"), [("github.com"), ("rust")], ("rust"), 1, 0⟩]
    (by decide) (by decide)
  refine ⟨?_, by decide, by decide⟩
  rw [h]
  decide

end Otot
